import Mathlib

/-!
Verification of the `frequenz-ai-jsonld` pipeline: a shallow embedding of
`fetch.py` (markdown structural extractor and JSON-LD graph builder) and
`query.py` (graph accessors, field registry, intent classifier and scorer),
together with theorems settling the specification's claims.

JSON values are modelled by the inductive `Json` below, mirroring the Python
objects produced by `json.loads` / consumed by `json.dump`.  Python `dict`s
become association lists (insertion order preserved, keys unique in every
document this program builds); Python `None` and JSON `null` are both `Json.null`
(in Python they are the same object, so `d.get(k)` returning `None` for a
missing key is indistinguishable from a stored `null`).  The only numbers this
program ever produces are the 1-based `position` fields, hence `Json.num : Nat`.
Places where the Python code would raise a `TypeError` on an ill-typed document
(e.g. iterating a non-list) are totalised with benign defaults and noted inline.
-/

inductive Json where
  | null : Json
  | bool (b : Bool) : Json
  | num (n : Nat) : Json
  | str (s : String) : Json
  | arr (elems : List Json) : Json
  | obj (members : List (String × Json)) : Json

namespace Json

mutual

/-- Structural equality of JSON values (Python `==` on parsed documents). -/
def beq : Json → Json → Bool
  | .null, .null => true
  | .bool a, .bool b => a == b
  | .num a, .num b => a == b
  | .str a, .str b => a == b
  | .arr a, .arr b => beqL a b
  | .obj a, .obj b => beqM a b
  | _, _ => false

def beqL : List Json → List Json → Bool
  | [], [] => true
  | a :: as, b :: bs => beq a b && beqL as bs
  | _, _ => false

def beqM : List (String × Json) → List (String × Json) → Bool
  | [], [] => true
  | a :: as, b :: bs => a.1 == b.1 && beq a.2 b.2 && beqM as bs
  | _, _ => false

end

instance : BEq Json := ⟨beq⟩

/-- Induction over `Json` with hypotheses on the members of arrays and
objects, by well-founded recursion on size. -/
theorem myInduction (P : Json → Prop)
    (hnull : P .null) (hbool : ∀ b, P (.bool b)) (hnum : ∀ n, P (.num n))
    (hstr : ∀ s, P (.str s))
    (harr : ∀ l, (∀ x ∈ l, P x) → P (.arr l))
    (hobj : ∀ m, (∀ p ∈ m, P p.2) → P (.obj m)) : ∀ j, P j
  | .null => hnull
  | .bool b => hbool b
  | .num n => hnum n
  | .str s => hstr s
  | .arr l => harr l (fun x hx =>
      have : sizeOf x < 1 + sizeOf l := by
        have := List.sizeOf_lt_of_mem hx; omega
      myInduction P hnull hbool hnum hstr harr hobj x)
  | .obj m => hobj m (fun p hp =>
      have : sizeOf p.2 < 1 + sizeOf m := by
        have h1 := List.sizeOf_lt_of_mem hp
        obtain ⟨k, v⟩ := p; simp at h1 ⊢; omega
      myInduction P hnull hbool hnum hstr harr hobj p.2)
termination_by j => sizeOf j

theorem beq_iff : ∀ a b : Json, beq a b = true ↔ a = b := by
  intro a
  induction a using myInduction with
  | hnull => intro b; cases b <;> simp [beq]
  | hbool x => intro b; cases b <;> simp [beq]
  | hnum x => intro b; cases b <;> simp [beq]
  | hstr x => intro b; cases b <;> simp [beq]
  | harr l ih =>
    intro b; cases b <;> simp [beq]
    rename_i l'
    induction l generalizing l' with
    | nil => cases l' <;> simp [beqL]
    | cons x xs ihx =>
      cases l' with
      | nil => simp [beqL]
      | cons y ys =>
        simp only [beqL, Bool.and_eq_true, List.cons.injEq]
        rw [ih x (by simp), ihx (fun z hz => ih z (by simp [hz])) ys]
  | hobj m ih =>
    intro b; cases b <;> simp [beq]
    rename_i m'
    induction m generalizing m' with
    | nil => cases m' <;> simp [beqM]
    | cons x xs ihx =>
      cases m' with
      | nil => simp [beqM]
      | cons y ys =>
        have hx : ∀ b, beq x.2 b = true ↔ x.2 = b := ih x (by simp)
        have hxs : ∀ z ∈ xs, ∀ b, beq z.2 b = true ↔ z.2 = b :=
          fun z hz => ih z (by simp [hz])
        obtain ⟨xk, xv⟩ := x
        obtain ⟨yk, yv⟩ := y
        simp only [beqM, Bool.and_eq_true, List.cons.injEq, Prod.mk.injEq]
        rw [hx yv, ihx hxs ys]
        simp [and_assoc]

instance : DecidableEq Json := fun a b =>
  decidable_of_iff (beq a b = true) (beq_iff a b)

instance : LawfulBEq Json where
  eq_of_beq h := (beq_iff _ _).mp h
  rfl := (beq_iff _ _).mpr rfl

/-- Python truthiness of a JSON value (`if x:`). -/
def truthy : Json → Bool
  | .null => false
  | .bool b => b
  | .num n => n != 0
  | .str s => s != ""
  | .arr l => !l.isEmpty
  | .obj m => !m.isEmpty

/-- `d.get(k)` on a Python dict, with the `None` default folded into
`Json.null` (Python's `None`).  On a non-dict the Python attribute lookup
would raise; we return `null`. -/
def get (j : Json) (k : String) : Json :=
  match j with
  | .obj members => match members.find? (fun p => p.1 == k) with
                    | some p => p.2
                    | none => .null
  | _ => .null

/-- `d.get(k, default)` with an explicit default. -/
def getD (j : Json) (k : String) (d : Json) : Json :=
  match j with
  | .obj members => match members.find? (fun p => p.1 == k) with
                    | some p => p.2
                    | none => d
  | _ => d

/-- Python `a or b`. -/
def pyOr (a b : Json) : Json := if a.truthy then a else b

/-- View a JSON value as a list (Python `for x in v`); iterating a non-list
would raise in Python, totalised to `[]`. -/
def asList : Json → List Json
  | .arr l => l
  | _ => []

/-- View a JSON value as a string; non-strings (over which Python would
subsequently raise on `.lower()`/`join`) are totalised to `""`. -/
def asStr : Json → String
  | .str s => s
  | _ => ""

end Json

/-- Encode an optional string the way the Python code stores
`None`-or-`str` values. -/
def optStr : Option String → Json
  | some s => .str s
  | none => .null

/-! ### Models of the Python string primitives used by the two modules -/

/-- Python `needle in hay` on strings: substring containment. -/
def containsSub (needle hay : String) : Bool :=
  decide (needle.data <:+: hay.data)

/-- Python `str.lower()`: per-character lowering (all text this program
matches case-insensitively is ASCII). -/
def pyLower (s : String) : String := ⟨s.data.map Char.toLower⟩

/-- Python `str.strip()`: drop leading and trailing whitespace. -/
def pyStrip (s : String) : String :=
  ⟨(((s.data.dropWhile Char.isWhitespace).reverse.dropWhile Char.isWhitespace).reverse)⟩

/-- Python `sep.join(...)`. -/
def pyJoin (sep : String) : List String → String
  | [] => ""
  | [x] => x
  | x :: xs => x ++ sep ++ pyJoin sep xs

/-- Split a character list at every occurrence of a separator character
(`str.split(sep)` for a one-character separator). -/
def splitCharAux (sep : Char) (acc : List Char) : List Char → List String
  | [] => [⟨acc.reverse⟩]
  | c :: cs =>
    if c = sep then ⟨acc.reverse⟩ :: splitCharAux sep [] cs
    else splitCharAux sep (c :: acc) cs

/-- Python `str.splitlines()` for `\n`-terminated text (fenced-block contents
use `\n` newlines): split at every newline, without a trailing empty piece. -/
def pySplitlines (s : String) : List String :=
  let parts := splitCharAux '\n' [] s.data
  if parts.getLast? = some "" then parts.dropLast else parts

/-- Python `str.split()` with no separator: maximal non-whitespace runs. -/
def wsWordsAux (acc : List Char) : List Char → List String
  | [] => if acc.isEmpty then [] else [⟨acc.reverse⟩]
  | c :: cs =>
    if c.isWhitespace then
      if acc.isEmpty then wsWordsAux [] cs else ⟨acc.reverse⟩ :: wsWordsAux [] cs
    else wsWordsAux (c :: acc) cs

def pySplitWs (s : String) : List String := wsWordsAux [] s.data

/-- Python `str.split("\n\n")`: split at every (non-overlapping, leftmost)
blank line. -/
def splitBlankAux (acc : List Char) : List Char → List String
  | [] => [⟨acc.reverse⟩]
  | '\n' :: '\n' :: cs => ⟨acc.reverse⟩ :: splitBlankAux [] cs
  | c :: cs => splitBlankAux (c :: acc) cs

def pySplitBlank (s : String) : List String := splitBlankAux [] s.data

/-- Python `dict.fromkeys` used as a stable deduplicator: keep the first
occurrence of each element, preserving order. -/
def dedupKeepFirst (seen : List String) : List String → List String
  | [] => []
  | x :: xs =>
    if x ∈ seen then dedupKeepFirst seen xs
    else x :: dedupKeepFirst (x :: seen) xs

/-! ### The markdown syntax tree (spec §3 `SyntaxNode`)

The markdown parser itself is an excluded external collaborator; the spec's
data model gives each node a `type`, a heading `level`, a raw `content`
payload and ordered `children` (parent back-references are implicit: the
extractors only ever ask for the sibling list a node came from, which the
recursion below carries along). -/

inductive SNode where
  | mk (type : String) (level : Nat) (content : String) (children : List SNode)

def SNode.type : SNode → String | .mk t _ _ _ => t
def SNode.level : SNode → Nat | .mk _ l _ _ => l
def SNode.content : SNode → String | .mk _ _ c _ => c
def SNode.children : SNode → List SNode | .mk _ _ _ ch => ch

mutual

/-- `node.walk()` of markdown-it: pre-order traversal including the node
itself (`include_self=True`, the default). -/
def SNode.walkList : SNode → List SNode
  | .mk t l c ch => .mk t l c ch :: walkListL ch

def walkListL : List SNode → List SNode
  | [] => []
  | n :: ns => n.walkList ++ walkListL ns

end

/-! ### `fetch.py` — structural extractor -/

/-- Loop body of `first_para_after_title`: scan a sibling list; at the first
level-1 heading, return the stripped content of the first paragraph among the
*following* siblings; if none follows, the Python `for` loop simply continues
with the remaining siblings (looking for a later H1). -/
def fpatGo : List SNode → Option String
  | [] => none
  | n :: rest =>
    if n.type == "heading" && n.level == 1 then
      match rest.find? (fun m => m.type == "paragraph") with
      | some p => some (pyStrip p.content)
      | none => fpatGo rest
    else fpatGo rest

/-- `first_para_after_title(ast)`: the first paragraph after the H1 title.
The Python code iterates `ast.children` and, for a top-level node,
`node.parent.children` is exactly `ast.children` with `siblings.index(node)`
the node's position. -/
def first_para_after_title (ast : SNode) : Option String :=
  fpatGo ast.children

/-- `find_install_cmds(ast)`: every stripped line containing `"pip install"`
from fenced blocks whose content contains that substring, in walk order,
stably deduplicated (`list(dict.fromkeys(cmds))`). -/
def find_install_cmds (ast : SNode) : List String :=
  dedupKeepFirst []
    (ast.walkList.flatMap (fun n =>
      if n.type == "fence" && containsSub "pip install" n.content then
        ((pySplitlines n.content).filter
          (fun line => containsSub "pip install" line)).map pyStrip
      else []))

/-- One bullet-list item's text in `list_after_heading`: all nested text
leaves, space-joined, stripped pieces. -/
def itemText (item : SNode) : String :=
  pyJoin " "
    ((item.walkList.filter (fun c => c.type == "text")).map (fun c => pyStrip c.content))

/-- From the following siblings of a matched heading: the first bullet list's
non-empty item texts (Python returns this list — possibly empty — as soon as a
`bullet_list` sibling is found). -/
def bulletItemsAfter (siblings : List SNode) : Option (List String) :=
  (siblings.find? (fun m => m.type == "bullet_list")).map
    (fun nxt => (nxt.children.map itemText).filter (fun t => t ≠ ""))

/-- Walk-order scan of `list_after_heading` over a sibling list: headings of
level 2 or 3 whose stripped lowercased text contains one of the (lowercased)
keywords; at a match with a bullet-list among its following siblings, return
that list's items; otherwise the Python `for node in ast.walk()` loop carries
on — into the node's own subtree first (where each child's sibling list is
`n.children`), then the remaining siblings. -/
def lahGo (keysLower : List String) : List SNode → Option (List String)
  | [] => none
  | n :: rest =>
    match
      (if (n.type == "heading" && (n.level == 2 || n.level == 3)) &&
          keysLower.any (fun kw => containsSub kw (pyLower (pyStrip n.content))) then
        bulletItemsAfter rest
      else none) with
    | some items => some items
    | none =>
      match lahGo keysLower n.children with
      | some items => some items
      | none => lahGo keysLower rest
termination_by l => sizeOf l
decreasing_by
  all_goals cases n with | mk t lv c ch => simp [SNode.children] <;> omega

/-- `list_after_heading(ast, keywords)`. -/
def list_after_heading (ast : SNode) (keywords : List String) : List String :=
  (lahGo (keywords.map pyLower) [ast]).getD []

/-! ### `fetch.py` — JSON-LD builder -/

/-- The relevant fields of the GitHub metadata record (`meta` in
`build_jsonld`).  `description`, `language` and `license` can be JSON `null`
(`none` here).  For `topics` and `language` the Python code uses
`meta.get(key, default)`; the outer `Option` encodes a missing key (GitHub
always sends all of these, but the `.get` defaults are modelled faithfully).
The license object `{"spdx_id": ...}` is collapsed to its `spdx_id` string,
the only member the code reads. -/
structure Meta where
  html_url : String
  name : String
  description : Option String
  license : Option String
  topics : Option (List String)
  language : Option (Option String)

/-- The fixed `@context` header. -/
def CONTEXT : Json :=
  .obj [("@vocab", .str "http://schema.org/"),
        ("schema", .str "http://schema.org/"),
        ("doap", .str "http://usefulinc.com/ns/doap#"),
        ("dcterms", .str "http://purl.org/dc/terms/"),
        ("spdx", .str "https://spdx.org/licenses/")]

/-- One `{"@type": "ListItem", "position": i+1, "name": f}` entry per element,
positions numbered from 1 (`enumerate`). -/
def listItemElems (xs : List String) : List Json :=
  xs.enum.map (fun p =>
    .obj [("@type", .str "ListItem"), ("position", .num (p.1 + 1)),
          ("name", .str p.2)])

/-- The resolved project description of `build_jsonld`:
`description = meta["description"] or first_para_after_title(ast)`
(Python `or`: `None` and `""` both fall through to the extractor). -/
def projectDescription (meta : Meta) (ast : SNode) : Option String :=
  match meta.description with
  | some d => if d = "" then first_para_after_title ast else some d
  | none => first_para_after_title ast

/-- The `hasPart` id list accumulated by `build_jsonld`'s three appends. -/
def rootHasPart (meta : Meta) (ast : SNode) : List String :=
  (if (find_install_cmds ast).isEmpty then []
   else [meta.html_url ++ "#howto-install"]) ++
  (if (list_after_heading ast ["feature", "key feature"]).isEmpty then []
   else [meta.html_url ++ "#features"]) ++
  (if (list_after_heading ast ["supported platform", "compatibility"]).isEmpty then []
   else [meta.html_url ++ "#supported-platforms"])

/-- The Project root node built by `build_jsonld` (`topics or None`,
`license` sub-object only when a license is present). -/
def buildRoot (meta : Meta) (ast : SNode) : Json :=
  .obj [("@id", .str meta.html_url),
        ("@type", .arr [.str "SoftwareApplication", .str "doap:Project"]),
        ("name", .str meta.name),
        ("description", optStr (projectDescription meta ast)),
        ("codeRepository", .str meta.html_url),
        ("programmingLanguage", optStr (meta.language.getD (some "Python"))),
        ("applicationCategory",
          if (meta.topics.getD []).isEmpty then .null
          else .arr ((meta.topics.getD []).map .str)),
        ("license",
          match meta.license with
          | some spdxId =>
            .obj [("@id", .str ("https://spdx.org/licenses/" ++ spdxId ++ ".html"))]
          | none => .null),
        ("hasPart", .arr ((rootHasPart meta ast).map .str))]

/-- The `HowTo` install node. -/
def buildHowto (meta : Meta) (ast : SNode) : Json :=
  .obj [("@id", .str (meta.html_url ++ "#howto-install")), ("@type", .str "HowTo"),
        ("name", .str ("Install " ++ meta.name)),
        ("tool", .arr ((find_install_cmds ast).map .str))]

/-- The features `ItemList` node. -/
def buildFeatures (meta : Meta) (ast : SNode) : Json :=
  .obj [("@id", .str (meta.html_url ++ "#features")), ("@type", .str "ItemList"),
        ("name", .str "Key Features"),
        ("itemListElement",
          .arr (listItemElems (list_after_heading ast ["feature", "key feature"])))]

/-- The supported-platforms `ItemList` node. -/
def buildPlatforms (meta : Meta) (ast : SNode) : Json :=
  .obj [("@id", .str (meta.html_url ++ "#supported-platforms")), ("@type", .str "ItemList"),
        ("name", .str "Supported Platforms"),
        ("itemListElement",
          .arr (listItemElems
            (list_after_heading ast ["supported platform", "compatibility"])))]

/-- The auxiliary nodes of the graph, in creation order (each present exactly
when its extraction is non-empty, mirroring the three `if` blocks). -/
def buildAux (meta : Meta) (ast : SNode) : List Json :=
  (if (find_install_cmds ast).isEmpty then [] else [buildHowto meta ast]) ++
  (if (list_after_heading ast ["feature", "key feature"]).isEmpty then []
   else [buildFeatures meta ast]) ++
  (if (list_after_heading ast ["supported platform", "compatibility"]).isEmpty then []
   else [buildPlatforms meta ast])

/-- `build_jsonld(meta, ast)`: context header, `@graph` = root followed by the
auxiliary nodes, and the generation timestamp
(`datetime.now(timezone.utc).isoformat()` is an external effect, passed in as
`now`). -/
def build_jsonld (meta : Meta) (ast : SNode) (now : String) : Json :=
  .obj [("@context", CONTEXT),
        ("@graph", .arr (buildRoot meta ast :: buildAux meta ast)),
        ("dcterms:modified", .str now)]

/-! ### `query.py` — graph accessors -/

/-- `graph_nodes(doc)`: `doc.get("@graph", [])`. -/
def graph_nodes (doc : Json) : List Json :=
  (doc.getD "@graph" (.arr [])).asList

/-- `project_node(doc)`: the first node whose `@type` (string or list)
contains `"SoftwareApplication"`; `{}` if none. -/
def project_node (doc : Json) : Json :=
  ((graph_nodes doc).find? (fun n =>
    let types :=
      match n.getD "@type" (.arr []) with
      | .str s => [Json.str s]
      | t => t.asList
    types.contains (Json.str "SoftwareApplication"))).getD (.obj [])

/-- `node_by_id(doc, node_id)`: first node with matching `@id`, else `{}`.
The ids compared come straight out of a `hasPart` JSON array, hence `Json`. -/
def node_by_id (doc : Json) (nodeId : Json) : Json :=
  ((graph_nodes doc).find? (fun n => n.get "@id" == nodeId)).getD (.obj [])

/-- `install_node(doc)`: first `hasPart` resolution whose `@type` equals the
*string* `"HowTo"`, else `{}`. -/
def install_node (doc : Json) : Json :=
  let proj := project_node doc
  (((proj.getD "hasPart" (.arr [])).asList.find? (fun pid =>
      (node_by_id doc pid).get "@type" == Json.str "HowTo")).map
    (node_by_id doc)).getD (.obj [])

/-- `itemlist_by_name(doc, keyword)`: first `ItemList` (string `@type`) whose
name contains the keyword case-insensitively, else `{}`. -/
def itemlist_by_name (doc : Json) (keyword : String) : Json :=
  ((graph_nodes doc).find? (fun n =>
    n.get "@type" == Json.str "ItemList" &&
    containsSub (pyLower keyword) (pyLower ((n.get "name").pyOr (.str "")).asStr))).getD
    (.obj [])

/-- `example_nodes(doc)`: `hasPart` resolutions of `@type` `"CreativeWork"`. -/
def example_nodes (doc : Json) : List Json :=
  let proj := project_node doc
  ((proj.getD "hasPart" (.arr [])).asList.filter (fun pid =>
    (node_by_id doc pid).get "@type" == Json.str "CreativeWork")).map
    (node_by_id doc)

/-- `license_text(lic)`: a dict's `@id` member, a plain string, or `""`. -/
def license_text (lic : Json) : String :=
  match lic with
  | .obj members =>
    match members.find? (fun p => p.1 == "@id") with
    | some p => p.2.asStr
    | none => ""
  | .str s => s
  | _ => ""

/-! ### `query.py` — retrieval configuration -/

/-- The field registry `FIELDS`: label and extractor, in registry order.
Each Python extractor returns a string or `None`; `None` (and any value of
the wrong runtime type, over which Python would subsequently raise) is
totalised to `""`, which the chunk filter treats identically (both falsy). -/
def FIELDS : List (String × (Json → String)) :=
  [("project:name", fun g => ((project_node g).get "name").asStr),
   ("project:description", fun g => ((project_node g).get "description").asStr),
   ("install:commands", fun g =>
     pyJoin "\n"
       ((((install_node g).getD "tool" (.arr [])).pyOr (.arr [])).asList.map Json.asStr)),
   ("features:list", fun g =>
     pyJoin "\n"
       (((itemlist_by_name g "feature").getD "itemListElement" (.arr [])).asList.filterMap
         (fun li => match li with
                    | .obj _ => some ((li.getD "name" (.str "")).asStr)
                    | _ => none))),
   ("platforms:list", fun g =>
     pyJoin "\n"
       (((itemlist_by_name g "platform").getD "itemListElement" (.arr [])).asList.filterMap
         (fun li => match li with
                    | .obj _ => some ((li.getD "name" (.str "")).asStr)
                    | _ => none))),
   ("examples:code", fun g =>
     pyJoin "\n\n" ((example_nodes g).map (fun ex => (ex.getD "text" (.str "")).asStr))),
   ("project:license", fun g => license_text ((project_node g).get "license")),
   ("project:topics", fun g =>
     pyJoin ", "
       ((((project_node g).getD "applicationCategory" (.arr [])).pyOr (.arr [])).asList.map
         Json.asStr))]

/-- `INTENT_KEYWORDS` (dict insertion order). -/
def INTENT_KEYWORDS : List (String × List String) :=
  [("purpose", ["what is", "what does", "purpose", "about", "overview"]),
   ("install", ["install", "installation", "setup", "pip", "how to install"]),
   ("example", ["example", "usage", "code", "snippet", "how to use"]),
   ("features", ["feature", "capability", "highlights"]),
   ("platforms", ["platform", "supported", "python version", "os",
                  "operating system", "architecture"]),
   ("license", ["license", "licence"]),
   ("topics", ["topic", "category", "tags", "keywords"])]

/-- `INTENT_FIELD_WEIGHTS` (dict insertion order). -/
def INTENT_FIELD_WEIGHTS : List (String × List (String × Nat)) :=
  [("purpose", [("project:description", 3), ("project:name", 1)]),
   ("install", [("install:commands", 3)]),
   ("example", [("examples:code", 3)]),
   ("features", [("features:list", 3)]),
   ("platforms", [("platforms:list", 3)]),
   ("license", [("project:license", 3)]),
   ("topics", [("project:topics", 3)])]

/-! ### `query.py` — retrieval logic -/

/-- `tokenize(text)`: whitespace-split, each token lowercased. -/
def tokenize (text : String) : List String :=
  (pySplitWs text).map pyLower

/-- `score_chunk(query, text)`: for each query token, its raw occurrence
count among the text's tokens (the `tf` dict), summed. -/
def score_chunk (query text : String) : Nat :=
  if text = "" then 0
  else
    let qtokens := tokenize query
    let ttokens := tokenize text
    qtokens.foldl (fun acc q => acc + ttokens.count q) 0

/-- `guess_intents(query)`: intents with a trigger substring of the lowercased
question, in table order; `["purpose"]` if none. -/
def guess_intents (query : String) : List String :=
  let ql := pyLower query
  let hits := (INTENT_KEYWORDS.filter (fun p =>
    p.2.any (fun k => containsSub k ql))).map (fun p => p.1)
  if hits.isEmpty then ["purpose"] else hits

/-- `INTENT_FIELD_WEIGHTS.get(intent, {}).get(label, 0)`. -/
def weightFor (intent label : String) : Nat :=
  (((INTENT_FIELD_WEIGHTS.lookup intent).getD []).lookup label).getD 0

/-- The per-chunk score of `main`'s loop (query.py lines 145–149):
`weight = 1 + Σ weights`, then
`total = base * weight if base > 0 else weight if any(i in intents for i in INTENT_FIELD_WEIGHTS) else base`. -/
def score_total (question : String) (intents : List String)
    (label content : String) : Int :=
  let base : Int := score_chunk question content
  let weight : Int := 1 + intents.foldl (fun acc i => acc + (weightFor i label : Int)) 0
  if base > 0 then base * weight
  else if INTENT_FIELD_WEIGHTS.any (fun p => intents.contains p.1) then weight
  else base

/-- The candidate chunks: `[(label, getter(doc)) for label, getter in FIELDS
if getter(doc)]`. -/
def chunksOf (doc : Json) : List (String × String) :=
  FIELDS.filterMap (fun p =>
    if p.2 doc ≠ "" then some (p.1, p.2 doc) else none)

/-- The best-match loop: fold over the chunks starting from
`best_label, best_content, best_score = None, None, -1`, replacing the best
on a strictly greater total. -/
def pickBest (question : String) (intents : List String)
    (chunks : List (String × String)) : Option (String × String) × Int :=
  chunks.foldl (fun acc chunk =>
    let total := score_total question intents chunk.1 chunk.2
    if total > acc.2 then (some chunk, total) else acc)
    (none, -1)

/-- The labels whose winning content is truncated to its first
blank-line-delimited block. -/
def listLikeLabels : List String :=
  ["examples:code", "install:commands", "features:list", "platforms:list"]

/-- Outcome of one run of `query.py`'s `main`.  `fileNotFound` is the printed
"Can't find …" early return; `parseError` is an exception escaping
`json.loads`; the rest mirror the three result prints. -/
inductive QueryResult where
  | fileNotFound
  | parseError
  | noKnowledge
  | noRelevant
  | answer (label content : String)
  deriving DecidableEq

/-- The retrieval part of `main`, after the graph document has been loaded:
intent classification, chunk gathering, best-match selection, and the
list-like truncation `best_content.split("\n\n")[0].strip()`.  The Python
guard is `if best_label:` — string truthiness — but every label in `FIELDS`
is non-empty, so it coincides with the `Option` match used here. -/
def runQuery (question : String) (doc : Json) : QueryResult :=
  let intents := guess_intents question
  let chunks := chunksOf doc
  if chunks.isEmpty then .noKnowledge
  else
    match (pickBest question intents chunks).1 with
    | some (label, content) =>
      if label ∈ listLikeLabels then
        .answer label (pyStrip ((pySplitBlank content).headD ""))
      else .answer label content
    | none => .noRelevant

/-- `main` of `query.py`: the filesystem is external (`fs` maps a path to its
contents when the file exists); `json.loads` is modelled by `Json.parse`
(defined below as the inverse of the serializer): a malformed file makes the
parse fail, which in Python is an exception escaping `main`. -/
def queryMainWith (parse : String → Option Json) (fs : String → Option String)
    (file question : String) : QueryResult :=
  match fs file with
  | none => .fileNotFound
  | some contents =>
    match parse contents with
    | none => .parseError
    | some doc => runQuery question doc

/-! ### JSON text serialization (`json.dump` / `json.loads`)

The saved artifact travels between the two run modes as JSON text.  The
serializer below models `json.dump` (indentation being cosmetic, the model is
compact; `ensure_ascii=False` means non-ASCII characters pass through raw) and
the parser models `json.loads` on the documents this program writes.  The
escape set covers exactly what can appear in the strings this pipeline stores;
the parser is fuelled to stay total. -/

/-- JSON string escaping for one character. -/
def escChar (c : Char) : List Char :=
  if c = '"' then ['\\', '"']
  else if c = '\\' then ['\\', '\\']
  else if c = '\n' then ['\\', 'n']
  else if c = '\t' then ['\\', 't']
  else if c = '\r' then ['\\', 'r']
  else [c]

/-- Render a string with surrounding quotes. -/
def renderStr (s : String) : List Char :=
  '"' :: (s.data.flatMap escChar ++ ['"'])

/-- The character of a decimal digit. -/
def digitChar (d : Nat) : Char := Char.ofNat (48 + d)

/-- Render a natural number in decimal. -/
def renderNat (n : Nat) : List Char :=
  if n = 0 then ['0'] else (Nat.digits 10 n).reverse.map digitChar

mutual

/-- Render a JSON value as text. -/
def renderV : Json → List Char
  | .null => 'n' :: 'u' :: 'l' :: 'l' :: []
  | .bool true => 't' :: 'r' :: 'u' :: 'e' :: []
  | .bool false => 'f' :: 'a' :: 'l' :: 's' :: 'e' :: []
  | .num n => renderNat n
  | .str s => renderStr s
  | .arr l => '[' :: (renderElems l ++ [']'])
  | .obj m => '\x7b' :: (renderMembers m ++ ['\x7d'])

def renderElems : List Json → List Char
  | [] => []
  | [x] => renderV x
  | x :: xs => renderV x ++ ',' :: renderElems xs

def renderMembers : List (String × Json) → List Char
  | [] => []
  | [p] => renderStr p.1 ++ ':' :: renderV p.2
  | p :: xs => renderStr p.1 ++ ':' :: renderV p.2 ++ ',' :: renderMembers xs

end

def Json.render (j : Json) : String := ⟨renderV j⟩

/-- Unescape one character after a backslash. -/
def unescChar (c : Char) : Option Char :=
  if c = '"' then some '"'
  else if c = '\\' then some '\\'
  else if c = 'n' then some '\n'
  else if c = 't' then some '\t'
  else if c = 'r' then some '\r'
  else none

/-- Parse a string body up to the closing quote. -/
def parseStrBody : List Char → Option (List Char × List Char)
  | [] => none
  | c :: rest =>
    if c = '"' then some ([], rest)
    else if c = '\\' then
      match rest with
      | [] => none
      | e :: rest2 =>
        match unescChar e with
        | some u =>
          match parseStrBody rest2 with
          | some (s, r) => some (u :: s, r)
          | none => none
        | none => none
    else
      match parseStrBody rest with
      | some (s, r) => some (c :: s, r)
      | none => none

/-- Parse a nonempty run of decimal digits. -/
def parseNat (cs : List Char) : Option (Nat × List Char) :=
  let ds := cs.takeWhile Char.isDigit
  if ds.isEmpty then none
  else some (ds.foldl (fun a c => a * 10 + (c.toNat - 48)) 0, cs.dropWhile Char.isDigit)

/-- Match an expected literal tail. -/
def expectLit : List Char → List Char → Option (List Char)
  | [], cs => some cs
  | _ :: _, [] => none
  | l :: ls, c :: cs => if c = l then expectLit ls cs else none

mutual

/-- Parse one JSON value. -/
def parseV : Nat → List Char → Option (Json × List Char)
  | 0, _ => none
  | _ + 1, [] => none
  | fuel + 1, c :: rest =>
    if c = 'n' then (expectLit ['u', 'l', 'l'] rest).map (fun r => (.null, r))
    else if c = 't' then (expectLit ['r', 'u', 'e'] rest).map (fun r => (.bool true, r))
    else if c = 'f' then (expectLit ['a', 'l', 's', 'e'] rest).map (fun r => (.bool false, r))
    else if c = '"' then
      match parseStrBody rest with
      | some (s, r) => some (.str ⟨s⟩, r)
      | none => none
    else if c = '[' then
      match rest with
      | [] => none
      | r1 :: r2 =>
        if r1 = ']' then some (.arr [], r2)
        else
          match parseElems fuel (r1 :: r2) with
          | some (l, r) => some (.arr l, r)
          | none => none
    else if c = '\x7b' then
      match rest with
      | [] => none
      | r1 :: r2 =>
        if r1 = '\x7d' then some (.obj [], r2)
        else
          match parseMembers fuel (r1 :: r2) with
          | some (m, r) => some (.obj m, r)
          | none => none
    else if c.isDigit then
      match parseNat (c :: rest) with
      | some (n, r) => some (.num n, r)
      | none => none
    else none

/-- Parse a comma-separated nonempty element list including the closing `]`. -/
def parseElems : Nat → List Char → Option (List Json × List Char)
  | 0, _ => none
  | fuel + 1, cs =>
    match parseV fuel cs with
    | some (v, r) =>
      match r with
      | [] => none
      | r1 :: r2 =>
        if r1 = ',' then
          match parseElems fuel r2 with
          | some (l, r3) => some (v :: l, r3)
          | none => none
        else if r1 = ']' then some ([v], r2)
        else none
    | none => none

/-- Parse a comma-separated nonempty member list including the closing brace. -/
def parseMembers : Nat → List Char → Option (List (String × Json) × List Char)
  | 0, _ => none
  | fuel + 1, cs =>
    match cs with
    | [] => none
    | c0 :: r0 =>
      if c0 = '"' then
        match parseStrBody r0 with
        | some (k, r1) =>
          match r1 with
          | [] => none
          | c1 :: r2 =>
            if c1 = ':' then
              match parseV fuel r2 with
              | some (v, r3) =>
                match r3 with
                | [] => none
                | c3 :: r4 =>
                  if c3 = ',' then
                    match parseMembers fuel r4 with
                    | some (m, r5) => some ((⟨k⟩, v) :: m, r5)
                    | none => none
                  else if c3 = '\x7d' then some ([(⟨k⟩, v)], r4)
                  else none
              | none => none
            else none
        | none => none
      else none

end

/-- `json.loads`: parse a complete document. -/
def Json.parse (s : String) : Option Json :=
  match parseV (s.data.length + 1) s.data with
  | some (j, []) => some j
  | _ => none

/-! ### Serialization round-trip: render then parse is the identity -/

/-- Residual input whose first character cannot extend a number (what follows
a complete value inside a document: a separator, a closing bracket, or the
end of input). -/
def goodRest (rest : List Char) : Prop :=
  ∀ c, rest.head? = some c → c.isDigit = false

theorem goodRest_nil : goodRest [] := by intro c h; simp at h

theorem goodRest_cons {c : Char} (h : c.isDigit = false) (t : List Char) :
    goodRest (c :: t) := by
  intro d hd; simp at hd; rwa [← hd]

theorem expectLit_append (ls rest : List Char) :
    expectLit ls (ls ++ rest) = some rest := by
  induction ls with
  | nil => simp [expectLit]
  | cons l ls ih => simp [expectLit, ih]

theorem strBody_rt (s : List Char) (rest : List Char) :
    parseStrBody (s.flatMap escChar ++ '"' :: rest) = some (s, rest) := by
  induction s with
  | nil => rw [List.flatMap_nil, List.nil_append, parseStrBody.eq_def]; simp
  | cons c cs ih =>
    rw [List.flatMap_cons]
    by_cases h1 : c = '"'
    · subst h1
      simp only [escChar, reduceIte, List.cons_append, List.nil_append]
      rw [parseStrBody.eq_def]
      simp [unescChar, ih]
    · by_cases h2 : c = '\\'
      · subst h2
        simp only [escChar, reduceIte, List.cons_append, List.nil_append]
        rw [parseStrBody.eq_def]
        simp [unescChar, ih]
      · by_cases h3 : c = '\n'
        · subst h3
          simp only [escChar, reduceIte, List.cons_append, List.nil_append]
          rw [parseStrBody.eq_def]
          simp [unescChar, ih]
        · by_cases h4 : c = '\t'
          · subst h4
            simp only [escChar, reduceIte, List.cons_append, List.nil_append]
            rw [parseStrBody.eq_def]
            simp [unescChar, ih]
          · by_cases h5 : c = '\r'
            · subst h5
              simp only [escChar, reduceIte, List.cons_append, List.nil_append]
              rw [parseStrBody.eq_def]
              simp [unescChar, ih]
            · simp only [escChar, h1, h2, h3, h4, h5, if_false, ite_false,
                List.cons_append, List.nil_append, if_neg]
              rw [parseStrBody.eq_def]
              simp [h1, h2, ih]

theorem digitChar_isDigit {d : Nat} (hd : d < 10) : (digitChar d).isDigit = true := by
  interval_cases d <;> decide

theorem digitChar_toNat {d : Nat} (hd : d < 10) : (digitChar d).toNat = 48 + d := by
  interval_cases d <;> decide

theorem renderNat_digits (n : Nat) : ∀ c ∈ renderNat n, c.isDigit = true := by
  intro c hc
  unfold renderNat at hc
  by_cases h : n = 0
  · simp [h] at hc; simp [hc]
  · simp [h] at hc
    obtain ⟨d, hd, hcd⟩ := hc
    have : d < 10 := Nat.digits_lt_base (by norm_num) hd
    rw [← hcd]; exact digitChar_isDigit this

theorem renderNat_ne_nil (n : Nat) : renderNat n ≠ [] := by
  unfold renderNat
  by_cases h : n = 0
  · simp [h]
  · simp [h, Nat.digits_ne_nil_iff_ne_zero]

theorem takeWhile_append_all {p : Char → Bool} {A B : List Char}
    (hA : ∀ c ∈ A, p c = true) (hB : ∀ c, B.head? = some c → p c = false) :
    (A ++ B).takeWhile p = A ∧ (A ++ B).dropWhile p = B := by
  induction A with
  | nil =>
    simp only [List.nil_append]
    cases B with
    | nil => simp
    | cons b t =>
      have hb := hB b (by simp)
      simp [List.takeWhile_cons, List.dropWhile_cons, hb]
  | cons a A ih =>
    have ha := hA a (by simp)
    have ih' := ih (fun c hc => hA c (by simp [hc]))
    simp [List.takeWhile_cons, List.dropWhile_cons, ha, ih'.1, ih'.2]

theorem foldl_digitChars (L : List Nat) (hL : ∀ d ∈ L, d < 10) (a : Nat) :
    (L.reverse.map digitChar).foldl (fun acc c => acc * 10 + (c.toNat - 48)) a
      = a * 10 ^ L.length + Nat.ofDigits 10 L := by
  induction L generalizing a with
  | nil => simp
  | cons d L ih =>
    have hd : d < 10 := hL d (by simp)
    have hL' : ∀ x ∈ L, x < 10 := fun x hx => hL x (by simp [hx])
    simp only [List.reverse_cons, List.map_append, List.foldl_append, List.map_cons,
      List.map_nil, List.foldl_cons, List.foldl_nil, ih hL']
    rw [digitChar_toNat hd, Nat.ofDigits_cons]
    have h48 : (48 : Nat) + d - 48 = d := by omega
    rw [h48, List.length_cons, pow_succ]
    ring

theorem parseNat_append (n : Nat) (rest : List Char) (hrest : goodRest rest) :
    parseNat (renderNat n ++ rest) = some (n, rest) := by
  have hsplit := takeWhile_append_all (p := Char.isDigit)
    (renderNat_digits n) hrest
  unfold parseNat
  simp only [hsplit.1, hsplit.2]
  rw [if_neg (by simp [renderNat_ne_nil n])]
  congr 1
  refine Prod.ext ?_ rfl
  show (renderNat n).foldl (fun a c => a * 10 + (c.toNat - 48)) 0 = n
  unfold renderNat
  by_cases h : n = 0
  · simp [h]
  · rw [if_neg h,
      foldl_digitChars _ (fun d hd => Nat.digits_lt_base (by norm_num) hd) 0]
    simp [Nat.ofDigits_digits]

mutual

/-- Fuel needed to parse a rendered value. -/
def szV : Json → Nat
  | .null => 1
  | .bool _ => 1
  | .num _ => 1
  | .str _ => 1
  | .arr l => 1 + szL l
  | .obj m => 1 + szM m

def szL : List Json → Nat
  | [] => 0
  | x :: xs => 1 + szV x + szL xs

def szM : List (String × Json) → Nat
  | [] => 0
  | p :: xs => 1 + szV p.2 + szM xs

end

theorem szV_pos (j : Json) : 1 ≤ szV j := by
  cases j <;> simp [szV]

theorem isDigit_ne {c x : Char} (h : c.isDigit = true) (hx : x.isDigit = false) :
    c ≠ x := fun he => by subst he; simp [hx] at h

theorem renderV_shape (j : Json) :
    ∃ c t, renderV j = c :: t ∧
      (c.isDigit = true ∨ c = 'n' ∨ c = 't' ∨ c = 'f' ∨ c = '"' ∨ c = '[' ∨ c = '\x7b') := by
  cases j with
  | null => exact ⟨'n', _, by rw [renderV.eq_def], by simp⟩
  | bool b =>
    cases b
    · exact ⟨'f', _, by rw [renderV.eq_def], by simp⟩
    · exact ⟨'t', _, by rw [renderV.eq_def], by simp⟩
  | num n =>
    cases h : renderNat n with
    | nil => exact absurd h (renderNat_ne_nil n)
    | cons c t =>
      refine ⟨c, t, by rw [renderV.eq_def]; exact h, Or.inl ?_⟩
      exact renderNat_digits n c (by rw [h]; simp)
  | str s => exact ⟨'"', s.data.flatMap escChar ++ ['"'], by rw [renderV.eq_def]; rfl, by simp⟩
  | arr l => exact ⟨'[', _, by rw [renderV.eq_def], by simp⟩
  | obj m => exact ⟨'\x7b', _, by rw [renderV.eq_def], by simp⟩

theorem parse_render_aux : ∀ fuel : Nat,
    (∀ (j : Json) (rest : List Char), szV j ≤ fuel → goodRest rest →
      parseV fuel (renderV j ++ rest) = some (j, rest)) ∧
    (∀ (l : List Json) (rest : List Char), l ≠ [] → szL l ≤ fuel →
      parseElems fuel (renderElems l ++ ']' :: rest) = some (l, rest)) ∧
    (∀ (m : List (String × Json)) (rest : List Char), m ≠ [] → szM m ≤ fuel →
      parseMembers fuel (renderMembers m ++ '\x7d' :: rest) = some (m, rest)) := by
  intro fuel
  induction fuel with
  | zero =>
    refine ⟨fun j rest hsz _ => absurd hsz (by have := szV_pos j; omega),
            fun l rest hne hsz => ?_, fun m rest hne hsz => ?_⟩
    · cases l with
      | nil => exact absurd rfl hne
      | cons x xs => exact absurd hsz (by simp [szL])
    · cases m with
      | nil => exact absurd rfl hne
      | cons p xs => exact absurd hsz (by simp [szM])
  | succ fuel ih =>
    obtain ⟨ihV, ihE, ihM⟩ := ih
    refine ⟨fun j rest hsz hrest => ?_, fun l rest hne hsz => ?_,
            fun m rest hne hsz => ?_⟩
    · -- parseV on a rendered value
      cases j with
      | null => simp [renderV, parseV, expectLit]
      | bool b => cases b <;> simp [renderV, parseV, expectLit]
      | str s => simp [renderV, renderStr, parseV, strBody_rt]
      | num n =>
        cases h : renderNat n with
        | nil => exact absurd h (renderNat_ne_nil n)
        | cons c t =>
          have hd : c.isDigit = true := renderNat_digits n c (by rw [h]; simp)
          have h1 : ¬ c = 'n' := isDigit_ne hd (by decide)
          have h2 : ¬ c = 't' := isDigit_ne hd (by decide)
          have h3 : ¬ c = 'f' := isDigit_ne hd (by decide)
          have h4 : ¬ c = '"' := isDigit_ne hd (by decide)
          have h5 : ¬ c = '[' := isDigit_ne hd (by decide)
          have h6 : ¬ c = '\x7b' := isDigit_ne hd (by decide)
          rw [show renderV (Json.num n) = c :: t by rw [renderV.eq_def]; exact h]
          rw [List.cons_append]
          simp only [parseV, if_neg h1, if_neg h2, if_neg h3, if_neg h4, if_neg h5,
            if_neg h6, hd, if_pos]
          rw [show c :: (t ++ rest) = renderNat n ++ rest by rw [h]; simp]
          rw [parseNat_append n rest hrest]
      | arr l =>
        cases l with
        | nil => simp [renderV, renderElems, parseV]
        | cons x xs =>
          have hszl : szL (x :: xs) ≤ fuel := by simp [szV] at hsz; omega
          obtain ⟨c, t, hct, hcht⟩ := renderV_shape x
          have hcne : ¬ c = ']' := by
            rcases hcht with h | h | h | h | h | h | h
            · exact isDigit_ne h (by decide)
            all_goals (subst h; decide)
          have hz : ∃ z, renderElems (x :: xs) = (c :: t) ++ z := by
            cases xs with
            | nil => exact ⟨[], by simp [renderElems, hct]⟩
            | cons y ys => exact ⟨',' :: renderElems (y :: ys), by simp [renderElems, hct]⟩
          obtain ⟨z, hz⟩ := hz
          rw [show renderV (Json.arr (x :: xs)) ++ rest
                = '[' :: (c :: (t ++ (z ++ (']' :: rest)))) by simp [renderV, hz]]
          simp only [parseV, reduceIte]
          rw [if_neg hcne]
          rw [show c :: (t ++ (z ++ (']' :: rest)))
                = renderElems (x :: xs) ++ ']' :: rest by simp [hz]]
          rw [ihE (x :: xs) rest (by simp) hszl]
          simp
      | obj m =>
        cases m with
        | nil => simp [renderV, renderMembers, parseV]
        | cons p xs =>
          have hszm : szM (p :: xs) ≤ fuel := by simp [szV] at hsz; omega
          have hz : ∃ z, renderMembers (p :: xs)
              = ('"' :: (p.1.data.flatMap escChar ++ ['"'])) ++ z := by
            cases xs with
            | nil => exact ⟨':' :: renderV p.2, by simp [renderMembers, renderStr]⟩
            | cons q ys =>
              exact ⟨':' :: (renderV p.2 ++ ',' :: renderMembers (q :: ys)),
                by simp [renderMembers, renderStr]⟩
          obtain ⟨z, hz⟩ := hz
          rw [show renderV (Json.obj (p :: xs)) ++ rest
                = '{' :: ('"' :: ((p.1.data.flatMap escChar ++ ['"'])
                    ++ (z ++ ('}' :: rest)))) by simp [renderV, hz]]
          simp only [parseV, reduceIte]
          rw [show '"' :: ((p.1.data.flatMap escChar ++ ['"']) ++ (z ++ ('}' :: rest)))
                = renderMembers (p :: xs) ++ '}' :: rest by simp [hz]]
          rw [ihM (p :: xs) rest (by simp) hszm]
          simp
    · -- parseElems on rendered elements
      cases l with
      | nil => exact absurd rfl hne
      | cons x xs =>
        cases xs with
        | nil =>
          have hszx : szV x ≤ fuel := by simp [szL] at hsz; omega
          have e1 := ihV x (']' :: rest) hszx (goodRest_cons (by decide) rest)
          simp [renderElems, parseElems, e1]
        | cons y ys =>
          have hszx : szV x ≤ fuel := by
            simp [szL] at hsz
            have := szV_pos y
            omega
          have hszt : szL (y :: ys) ≤ fuel := by
            simp [szL] at hsz ⊢
            have := szV_pos x
            omega
          have e1 := ihV x (',' :: (renderElems (y :: ys) ++ ']' :: rest)) hszx
            (goodRest_cons (by decide) _)
          have e2 := ihE (y :: ys) rest (by simp) hszt
          rw [show renderElems (x :: y :: ys) ++ ']' :: rest
                = renderV x ++ (',' :: (renderElems (y :: ys) ++ ']' :: rest)) by
              simp [renderElems]]
          simp [parseElems, e1, e2]
    · -- parseMembers on rendered members
      cases m with
      | nil => exact absurd rfl hne
      | cons p xs =>
        have hszp : szV p.2 ≤ fuel := by simp [szM] at hsz; omega
        cases xs with
        | nil =>
          have e1 := ihV p.2 ('}' :: rest) hszp (goodRest_cons (by decide) rest)
          rw [show renderMembers [p] ++ '}' :: rest
                = '"' :: (p.1.data.flatMap escChar
                    ++ '"' :: (':' :: (renderV p.2 ++ '}' :: rest))) by
              simp [renderMembers, renderStr]]
          simp [parseMembers, strBody_rt, e1]
        | cons q ys =>
          have hszt : szM (q :: ys) ≤ fuel := by
            simp [szM] at hsz ⊢
            have := szV_pos p.2
            omega
          have e1 := ihV p.2 (',' :: (renderMembers (q :: ys) ++ '}' :: rest)) hszp
            (goodRest_cons (by decide) _)
          have e2 := ihM (q :: ys) rest (by simp) hszt
          rw [show renderMembers (p :: q :: ys) ++ '}' :: rest
                = '"' :: (p.1.data.flatMap escChar
                    ++ '"' :: (':' :: (renderV p.2
                        ++ ',' :: (renderMembers (q :: ys) ++ '}' :: rest)))) by
              simp [renderMembers, renderStr]]
          simp [parseMembers, strBody_rt, e1, e2]

theorem szL_le_len (l : List Json) (h : ∀ x ∈ l, szV x ≤ (renderV x).length) :
    szL l ≤ (renderElems l).length + 1 := by
  induction l with
  | nil => simp [szL, renderElems]
  | cons x xs ih =>
    have hx := h x (by simp)
    have ih' := ih (fun z hz => h z (by simp [hz]))
    cases xs with
    | nil => simp [szL, renderElems]; omega
    | cons y ys =>
      simp [szL, renderElems] at *
      omega

theorem szM_le_len (m : List (String × Json)) (h : ∀ p ∈ m, szV p.2 ≤ (renderV p.2).length) :
    szM m ≤ (renderMembers m).length + 1 := by
  induction m with
  | nil => simp [szM, renderMembers]
  | cons p xs ih =>
    have hx := h p (by simp)
    have ih' := ih (fun z hz => h z (by simp [hz]))
    cases xs with
    | nil => simp [szM, renderMembers, renderStr]; omega
    | cons q ys =>
      simp [szM, renderMembers, renderStr] at *
      omega

theorem szV_le_len : ∀ j : Json, szV j ≤ (renderV j).length := by
  intro j
  induction j using Json.myInduction with
  | hnull => simp [szV, renderV]
  | hbool b => cases b <;> simp [szV, renderV]
  | hnum n =>
    have := renderNat_ne_nil n
    simp [szV, renderV]
    exact List.length_pos.mpr this
  | hstr s => simp [szV, renderV, renderStr]
  | harr l ih =>
    have := szL_le_len l ih
    simp [szV, renderV]
    omega
  | hobj m ih =>
    have := szM_le_len m ih
    simp [szV, renderV]
    omega

/-- Round-trip of the serializer: parsing a rendered document recovers it
exactly — every node, every member, in order, `null`s included. -/
theorem Json.parse_render (j : Json) : Json.parse (Json.render j) = some j := by
  have h1 : szV j ≤ (renderV j).length + 1 :=
    le_trans (szV_le_len j) (Nat.le_succ _)
  have h2 := (parse_render_aux ((renderV j).length + 1)).1 j [] h1 goodRest_nil
  rw [List.append_nil] at h2
  show (match parseV ((Json.render j).data.length + 1) (Json.render j).data with
        | some (v, []) => some v
        | _ => none) = some j
  rw [show (Json.render j).data = renderV j from rfl, h2]

/-! ### Spec-side definitions and claim theorems -/

/-- The sibling list following the first level-1 heading, if one exists. -/
def afterFirstH1 : List SNode → Option (List SNode)
  | [] => none
  | n :: rest =>
    if n.type == "heading" && n.level == 1 then some rest else afterFirstH1 rest

/-- The spec's `descriptionNear`, as amended: the stripped content of the
first paragraph-type node among the following siblings of the first level-1
heading, scanning all the way to the end of the document (the scan does not
stop at subsequent headings). -/
def specDescriptionNear (ast : SNode) : Option String :=
  (afterFirstH1 ast.children).bind (fun rest =>
    (rest.find? (fun m => m.type == "paragraph")).map (fun p => pyStrip p.content))

/-- The claim's stated absence condition: no level-1 heading exists, or no
paragraph occurs among its following siblings *before the next heading* or
the end of the document. -/
def claimNoParaBeforeNextHeading (ast : SNode) : Bool :=
  match afterFirstH1 ast.children with
  | none => true
  | some rest =>
    ((rest.takeWhile (fun m => m.type != "heading")).find?
      (fun m => m.type == "paragraph")).isNone

theorem fpatGo_none : ∀ ns : List SNode,
    ns.find? (fun m => m.type == "paragraph") = none → fpatGo ns = none := by
  intro ns h
  rw [List.find?_eq_none] at h
  induction ns with
  | nil => rfl
  | cons n rest ih =>
    have hrest : rest.find? (fun m => m.type == "paragraph") = none :=
      List.find?_eq_none.mpr (fun x hx => h x (List.mem_cons_of_mem _ hx))
    have ih' := ih (fun x hx => h x (List.mem_cons_of_mem _ hx))
    by_cases hh : (n.type == "heading" && n.level == 1) = true
    · simp only [fpatGo, hh, if_true, hrest, ih']
    · simp only [fpatGo, hh, if_false, ih']
      simp [hh, ih']

theorem fpatGo_eq_spec : ∀ ns : List SNode,
    fpatGo ns = (afterFirstH1 ns).bind (fun rest =>
      (rest.find? (fun m => m.type == "paragraph")).map (fun p => pyStrip p.content)) := by
  intro ns
  induction ns with
  | nil => rfl
  | cons n rest ih =>
    by_cases hh : (n.type == "heading" && n.level == 1) = true
    · simp only [fpatGo, afterFirstH1, hh, if_true, Option.some_bind]
      cases hf : rest.find? (fun m => m.type == "paragraph") with
      | some p => simp
      | none => simp [fpatGo_none rest hf]
    · simp only [fpatGo, afterFirstH1, hh, if_false]
      simp only [hh, if_false] at *
      exact ih

/-- C2, amended: `descriptionNear` returns the trimmed content of the first
paragraph-type node among the following siblings of the first level-1
heading, and returns absent exactly when no level-1 heading exists or no
paragraph occurs among those siblings anywhere before the end of the
document (the sibling scan does not stop at the next heading). -/
theorem claimC2_description_near (ast : SNode) :
    first_para_after_title ast = specDescriptionNear ast :=
  fpatGo_eq_spec ast.children

/-- A document whose first level-1 heading is followed by a level-2 heading
and only then by a paragraph. -/
def c2Tree : SNode :=
  .mk "root" 0 "" [.mk "heading" 1 "Title" [], .mk "heading" 2 "Sub" [],
                   .mk "paragraph" 0 " x " []]

/-- C2, counterexample: on `c2Tree` no paragraph follows the level-1 heading
before the next heading, so the claim as stated demands an absent result, yet
the code returns the paragraph found past the level-2 heading. -/
theorem claimC2_counterexample :
    claimNoParaBeforeNextHeading c2Tree = true ∧
    first_para_after_title c2Tree = some "x" := by decide

/-- A filesystem with a single malformed graph file. -/
def c3Fs : String → Option String :=
  fun p => if p = "graph.jsonld" then some "not json" else none

/-- A filesystem with no files at all. -/
def c3FsEmpty : String → Option String := fun _ => none

/-- C3, counterexample: the saved-graph file exists but is malformed; the
run ends in a parse failure (the `json.loads` exception), not in the
"file not found" report the claim promises for malformed files. -/
theorem claimC3_counterexample :
    c3Fs "graph.jsonld" = some "not json" ∧
    Json.parse "not json" = none ∧
    queryMainWith Json.parse c3Fs "graph.jsonld" "q" = QueryResult.parseError ∧
    QueryResult.parseError ≠ QueryResult.fileNotFound := by
  refine ⟨by decide, by decide, ?_, by decide⟩
  decide

/-- C3, amended: a *missing* saved graph file is reported as file-not-found
before any parsing attempt and the retriever never runs; a *malformed*
existing file instead fails at the parsing step (an exception from the
loader), also without reaching the retriever. -/
theorem claimC3_error_handling :
    (∀ (fs : String → Option String) (file question : String),
      fs file = none →
      queryMainWith Json.parse fs file question = QueryResult.fileNotFound) ∧
    (∀ (fs : String → Option String) (file question contents : String),
      fs file = some contents → Json.parse contents = none →
      queryMainWith Json.parse fs file question = QueryResult.parseError) := by
  constructor
  · intro fs file question h
    simp [queryMainWith, h]
  · intro fs file question contents h hp
    simp [queryMainWith, h, hp]

/-- Witness for C3 at concrete inputs. -/
theorem claimC3_witness :
    queryMainWith Json.parse c3FsEmpty "graph.jsonld" "q" = QueryResult.fileNotFound ∧
    queryMainWith Json.parse c3Fs "graph.jsonld" "q" = QueryResult.parseError :=
  ⟨claimC3_error_handling.1 c3FsEmpty "graph.jsonld" "q" rfl,
   claimC3_error_handling.2 c3Fs "graph.jsonld" "q" "not json" (by decide) (by decide)⟩

/-- The claim's characterization of the collected install lines: every
stripped line containing the case-sensitive substring `"pip install"`, taken
from fenced code blocks whose content contains that substring, in traversal
order. -/
def specInstallLines (ast : SNode) : List String :=
  ast.walkList.flatMap (fun n =>
    if n.type == "fence" && containsSub "pip install" n.content then
      ((pySplitlines n.content).filter
        (fun line => containsSub "pip install" line)).map pyStrip
    else [])

/-- C5: `installCommands` returns exactly the claim's line collection,
stably deduplicated (first occurrence kept, order preserved), and the empty
sequence — never a failure — when no such line exists. -/
theorem claimC5_install_cmds (ast : SNode) :
    find_install_cmds ast = dedupKeepFirst [] (specInstallLines ast) ∧
    (specInstallLines ast = [] → find_install_cmds ast = []) := by
  refine ⟨rfl, fun h => ?_⟩
  show dedupKeepFirst [] (specInstallLines ast) = []
  rw [h]
  rfl

/-- A document with no fenced block at all. -/
def c5Tree : SNode := .mk "root" 0 "" [.mk "paragraph" 0 "hello" []]

/-- Witness for C5: on a fence-free document the collection is empty and the
extractor returns the empty sequence. -/
theorem claimC5_witness :
    specInstallLines c5Tree = [] ∧ find_install_cmds c5Tree = [] :=
  ⟨by decide, (claimC5_install_cmds c5Tree).2 (by decide)⟩

theorem project_node_build (meta : Meta) (ast : SNode) (now : String) :
    project_node (build_jsonld meta ast now) = buildRoot meta ast := by
  simp [project_node, graph_nodes, build_jsonld, Json.getD, Json.asList,
    List.find?_cons, buildRoot]

/-- The claim's resolution rule for the project description: the metadata
description when present and non-empty, else `descriptionNear(tree)`, else
absent. -/
def specProjectDescription (meta : Meta) (ast : SNode) : Option String :=
  match meta.description with
  | some d => if d ≠ "" then some d else first_para_after_title ast
  | none => first_para_after_title ast

/-- C6: the `description` field of the built Project node is the claim's
resolution (absent is stored as the explicit `null` marker). -/
theorem claimC6_description_resolution (meta : Meta) (ast : SNode) (now : String) :
    (project_node (build_jsonld meta ast now)).get "description"
      = optStr (specProjectDescription meta ast) := by
  rw [project_node_build]
  show Json.get (buildRoot meta ast) "description" = optStr (specProjectDescription meta ast)
  simp only [buildRoot, Json.get, List.find?_cons]
  norm_num
  unfold projectDescription specProjectDescription
  cases meta.description with
  | none => rfl
  | some d =>
    by_cases h : d = "" <;> simp [h]

/-- C7: building a graph, serializing it and reloading it reproduces the
document exactly — same project name, description, `hasPart` id list, all
auxiliary node contents, node order and presence/absence of every field. -/
theorem claimC7_round_trip (meta : Meta) (ast : SNode) (now : String) :
    Json.parse (Json.render (build_jsonld meta ast now))
      = some (build_jsonld meta ast now) :=
  Json.parse_render (build_jsonld meta ast now)

/-- A graph whose only non-empty registry field is `install:commands`, with
content "pip install foo". -/
def c9Doc : Json :=
  .obj [("@graph", .arr [
    .obj [("@id", .str "https://x/p"), ("@type", .arr [.str "SoftwareApplication"]),
          ("hasPart", .arr [.str "https://x/p#howto-install"])],
    .obj [("@id", .str "https://x/p#howto-install"), ("@type", .str "HowTo"),
          ("tool", .arr [.str "pip install foo"])]])]

/-- C9: on the install-only graph, the question "How do I install this?"
selects `install:commands` and returns exactly "pip install foo", also after
the list-like truncation. -/
theorem claimC9_install_scenario :
    chunksOf c9Doc = [("install:commands", "pip install foo")] ∧
    runQuery "How do I install this?" c9Doc
      = QueryResult.answer "install:commands" "pip install foo" := by
  constructor
  · decide
  · decide

theorem lookup_mem {β : Type} {l : List (String × β)} {k : String} {v : β}
    (h : l.lookup k = some v) : (k, v) ∈ l := by
  induction l with
  | nil => simp [List.lookup] at h
  | cons p ps ih =>
    obtain ⟨pk, pv⟩ := p
    by_cases he : k = pk
    · subst he
      simp [List.lookup] at h
      simp [h]
    · have hbe : (k == pk) = false := by simp [he]
      simp [List.lookup, hbe] at h
      exact List.mem_cons_of_mem _ (ih h)

theorem pyLower_append (a b : String) :
    pyLower (a ++ b) = pyLower a ++ pyLower b := by
  show String.mk ((a ++ b).data.map Char.toLower) = _
  rw [String.data_append, List.map_append]
  rfl

/-- Every trigger substring in the intent table is already lowercase. -/
theorem triggers_lower : ∀ p ∈ INTENT_KEYWORDS, ∀ k ∈ p.2, pyLower k = k := by
  decide

/-- C8: intent classification is monotonic in trigger presence — appending a
trigger of an intent `i` to any question keeps (or makes) `i` classified. -/
theorem claimC8_intent_monotonic (q i t : String)
    (_hi : i ∈ guess_intents q)
    (ht : t ∈ (INTENT_KEYWORDS.lookup i).getD []) :
    i ∈ guess_intents (q ++ t) := by
  cases hlk : INTENT_KEYWORDS.lookup i with
  | none => rw [hlk] at ht; simp at ht
  | some ks =>
    rw [hlk] at ht; simp at ht
    have hmem : (i, ks) ∈ INTENT_KEYWORDS := lookup_mem hlk
    have hlow : pyLower t = t := triggers_lower (i, ks) hmem t ht
    have hsub : containsSub t (pyLower (q ++ t)) = true := by
      unfold containsSub
      apply decide_eq_true
      rw [pyLower_append, hlow, String.data_append]
      exact (List.suffix_append _ _).isInfix
    have hhit : i ∈ ((INTENT_KEYWORDS.filter
        (fun p => p.2.any (fun k => containsSub k (pyLower (q ++ t))))).map
          (fun p => p.1)) :=
      List.mem_map.mpr ⟨(i, ks),
        List.mem_filter.mpr ⟨hmem, by
          simp only [List.any_eq_true]
          exact ⟨t, ht, hsub⟩⟩, rfl⟩
    unfold guess_intents
    rw [if_neg]
    · exact hhit
    · simp only [List.isEmpty_eq_true]
      exact fun hempty => absurd (hempty ▸ hhit) (List.not_mem_nil i)

/-- Witness for C8: "install" stays classified when its trigger "pip" is
appended. -/
theorem claimC8_witness :
    "install" ∈ guess_intents "how to install it" ∧
    "pip" ∈ (INTENT_KEYWORDS.lookup "install").getD [] ∧
    "install" ∈ guess_intents ("how to install it" ++ "pip") :=
  ⟨by decide, by decide,
   claimC8_intent_monotonic "how to install it" "install" "pip"
     (by decide) (by decide)⟩

/-- The fallback-condition equivalence behind C1: the code asks whether any
*key of the weight table* is an active intent; the claim asks whether any
*active intent* has any configured weight entry at all.  The two agree for
every intent list, because every key of the table carries a non-empty entry
dict. -/
theorem anyW_iff (intents : List String) :
    INTENT_FIELD_WEIGHTS.any (fun p => intents.contains p.1)
      = intents.any (fun i =>
          !(((INTENT_FIELD_WEIGHTS.lookup i).getD []).isEmpty)) := by
  rw [Bool.eq_iff_iff]
  simp only [List.any_eq_true]
  constructor
  · rintro ⟨p, hpW, hc⟩
    refine ⟨p.1, by simpa using hc, ?_⟩
    fin_cases hpW <;> decide
  · rintro ⟨i, hi, hne⟩
    cases hlk : INTENT_FIELD_WEIGHTS.lookup i with
    | none => rw [hlk] at hne; simp at hne
    | some v => exact ⟨(i, v), lookup_mem hlk, by simpa using hi⟩

/-- The claim's combined-score formula: weight is 1 plus the sum of the
active intents' configured weights for the label (0 if unconfigured);
`base * weight` when the term-overlap base is positive; else `weight` when
any active intent has any configured weight entry at all; else 0. -/
def specCombinedScore (question : String) (intents : List String)
    (label content : String) : Int :=
  let base : Int := score_chunk question content
  let weight : Int := 1 + intents.foldl (fun acc i => acc + (weightFor i label : Int)) 0
  if base > 0 then base * weight
  else if intents.any (fun i => !(((INTENT_FIELD_WEIGHTS.lookup i).getD []).isEmpty))
    then weight
  else 0

theorem score_total_eq_spec (question : String) (intents : List String)
    (label content : String) :
    score_total question intents label content
      = specCombinedScore question intents label content := by
  unfold score_total specCombinedScore
  simp only [anyW_iff]
  by_cases hb : ((score_chunk question content : Int) > 0)
  · simp [hb]
  · have h0 : ((score_chunk question content : Int) : Int) = 0 := by
      have := Int.natCast_nonneg (score_chunk question content)
      omega
    simp [hb, h0]

/-- C1: for every graph and question, the scorer's per-surviving-field
combined score follows the claim's formula. -/
theorem claimC1_score_formula (doc : Json) (question : String) :
    ∀ chunk ∈ chunksOf doc,
      score_total question (guess_intents question) chunk.1 chunk.2
        = specCombinedScore question (guess_intents question) chunk.1 chunk.2 :=
  fun chunk _ => score_total_eq_spec question (guess_intents question) chunk.1 chunk.2

/-- Witness for C1 on the install-only document. -/
theorem claimC1_witness :
    ("install:commands", "pip install foo") ∈ chunksOf c9Doc ∧
    score_total "How do I install this?" (guess_intents "How do I install this?")
        "install:commands" "pip install foo"
      = specCombinedScore "How do I install this?"
          (guess_intents "How do I install this?") "install:commands" "pip install foo" :=
  ⟨by decide,
   claimC1_score_formula c9Doc "How do I install this?"
     ("install:commands", "pip install foo") (by decide)⟩

theorem guess_intents_ne_nil (q : String) : guess_intents q ≠ [] := by
  unfold guess_intents
  cases hh : ((INTENT_KEYWORDS.filter (fun p =>
      p.2.any (fun k => containsSub k (pyLower q)))).map (fun p => p.1)).isEmpty
  · rw [if_neg (by simp [hh])]
    intro hc
    rw [hc] at hh
    simp at hh
  · rw [if_pos hh]
    simp

theorem guess_intents_in_table (q : String) :
    ∀ i ∈ guess_intents q, (INTENT_FIELD_WEIGHTS.lookup i).isSome := by
  intro i hi
  unfold guess_intents at hi
  by_cases hh : ((INTENT_KEYWORDS.filter (fun p =>
      p.2.any (fun k => containsSub k (pyLower q)))).map (fun p => p.1)).isEmpty
  · rw [if_pos hh] at hi
    simp at hi
    subst hi
    decide
  · rw [if_neg (by simp [hh])] at hi
    obtain ⟨p, hp, rfl⟩ := List.mem_map.mp hi
    have hpK : p ∈ INTENT_KEYWORDS := (List.mem_filter.mp hp).1
    fin_cases hpK <;> decide

theorem foldl_weight_le (label : String) (l : List String) :
    ∀ init : Int, init ≤ l.foldl (fun acc i => acc + (weightFor i label : Int)) init := by
  induction l with
  | nil => intro init; exact le_refl _
  | cons i is ih =>
    intro init
    rw [List.foldl_cons]
    calc init ≤ init + (weightFor i label : Int) := by
            have := Int.natCast_nonneg (weightFor i label); omega
      _ ≤ _ := ih _

theorem score_total_ge_one (q : String) (intents : List String) (label content : String)
    (hne : intents ≠ [])
    (hk : ∀ i ∈ intents, (INTENT_FIELD_WEIGHTS.lookup i).isSome) :
    1 ≤ score_total q intents label content := by
  unfold score_total
  have hw : (1 : Int) ≤ 1 + intents.foldl (fun acc i => acc + (weightFor i label : Int)) 0 := by
    have := foldl_weight_le label intents 0
    omega
  by_cases hb : ((score_chunk q content : Int) > 0)
  · rw [if_pos hb]
    calc (1 : Int) = 1 * 1 := by ring
      _ ≤ (score_chunk q content : Int)
            * (1 + intents.foldl (fun acc i => acc + (weightFor i label : Int)) 0) := by
          apply mul_le_mul (by omega) hw (by norm_num) (by omega)
  · rw [if_neg hb]
    have hcond : INTENT_FIELD_WEIGHTS.any (fun p => intents.contains p.1) = true := by
      obtain ⟨i, hi⟩ := List.exists_mem_of_ne_nil intents hne
      have hs := hk i hi
      cases hlk : INTENT_FIELD_WEIGHTS.lookup i with
      | none => rw [hlk] at hs; simp at hs
      | some v =>
        exact List.any_eq_true.mpr ⟨(i, v), lookup_mem hlk, by simpa using hi⟩
    rw [if_pos hcond]
    exact hw

theorem pickBest_fold_some (q : String) (intents : List String) :
    ∀ (chs : List (String × String)) (acc : Option (String × String) × Int),
      acc.1.isSome →
      ((chs.foldl (fun acc chunk =>
        let total := score_total q intents chunk.1 chunk.2
        if total > acc.2 then (some chunk, total) else acc) acc).1).isSome := by
  intro chs
  induction chs with
  | nil => intro acc h; exact h
  | cons c rest ih =>
    intro acc h
    rw [List.foldl_cons]
    apply ih
    by_cases ht : score_total q intents c.1 c.2 > acc.2
    · simp [ht]
    · simp [ht]; exact h

theorem pickBest_isSome (q : String) (intents : List String)
    (chunks : List (String × String)) (hne : chunks ≠ [])
    (hscore : ∀ c ∈ chunks, (-1 : Int) < score_total q intents c.1 c.2) :
    (pickBest q intents chunks).1.isSome := by
  cases chunks with
  | nil => exact absurd rfl hne
  | cons c rest =>
    unfold pickBest
    rw [List.foldl_cons]
    apply pickBest_fold_some
    have hc := hscore c (by simp)
    simp [hc]

/-- C10: whenever at least one registry field produces non-empty text, the
retriever selects a winner and prints an answer — the
"No relevant information found." branch is unreachable. -/
theorem claimC10_always_answers (doc : Json) (question : String)
    (h : chunksOf doc ≠ []) :
    ∃ label content, runQuery question doc = QueryResult.answer label content := by
  unfold runQuery
  rw [if_neg (by simpa using h)]
  have hsome := pickBest_isSome question (guess_intents question) (chunksOf doc) h
    (fun c _ => lt_of_lt_of_le (by norm_num)
      (score_total_ge_one question (guess_intents question) c.1 c.2
        (guess_intents_ne_nil question) (guess_intents_in_table question)))
  obtain ⟨⟨label, content⟩, hp⟩ := Option.isSome_iff_exists.mp hsome
  rw [hp]
  by_cases hl : label ∈ listLikeLabels
  · exact ⟨label, pyStrip ((pySplitBlank content).headD ""), by simp [hl]⟩
  · exact ⟨label, content, by simp [hl]⟩

/-- Witness for C10 on the install-only document and an intent-free
question. -/
theorem claimC10_witness :
    chunksOf c9Doc ≠ [] ∧
    ∃ label content, runQuery "hello" c9Doc = QueryResult.answer label content :=
  ⟨by decide, claimC10_always_answers c9Doc "hello" (by decide)⟩

/-- Key presence in a JSON object (Python `k in node`): distinguishes a
member that is present (even with value `null`) from an absent one. -/
def jsonMember (j : Json) (k : String) : Option Json :=
  match j with
  | .obj members => (members.find? (fun p => p.1 == k)).map (fun p => p.2)
  | _ => none

theorem str_ne_append (a s : String) (hs : s ≠ "") : a ≠ a ++ s := by
  intro h
  apply hs
  have hd : a.data = a.data ++ s.data := by
    conv_lhs => rw [h]
    rw [String.data_append]
  have h2 : s.data = [] := by
    have := congrArg List.length hd
    simp at this
    exact List.length_eq_zero.mp this
  exact String.ext (by rw [h2])

theorem str_append_ne (a : String) {s t : String} (hst : s ≠ t) :
    a ++ s ≠ a ++ t := by
  intro h
  apply hst
  have hd : a.data ++ s.data = a.data ++ t.data := by
    rw [← String.data_append, ← String.data_append, h]
  exact String.ext (List.append_cancel_left hd)

theorem Json.str_beq (a b : String) : (Json.str a == Json.str b) = (a == b) := by
  by_cases h : a = b
  · subst h; simp
  · rw [beq_eq_false_iff_ne.mpr (by simp [h]), beq_eq_false_iff_ne.mpr h]

/-- C4: the emitted graph is the Project root followed by the auxiliary
nodes in creation order; every id in the root's `hasPart` list resolves to
exactly one node of the graph; and no auxiliary node carries a `hasPart`
member of its own. -/
theorem claimC4_graph_invariants (meta : Meta) (ast : SNode) (now : String) :
    graph_nodes (build_jsonld meta ast now) = buildRoot meta ast :: buildAux meta ast ∧
    project_node (build_jsonld meta ast now) = buildRoot meta ast ∧
    (buildRoot meta ast).get "hasPart" = .arr ((rootHasPart meta ast).map .str) ∧
    (∀ pid ∈ rootHasPart meta ast,
      ((graph_nodes (build_jsonld meta ast now)).filter
        (fun n => n.get "@id" == Json.str pid)).length = 1) ∧
    (∀ n ∈ buildAux meta ast, jsonMember n "hasPart" = none) := by
  have hg : graph_nodes (build_jsonld meta ast now)
      = buildRoot meta ast :: buildAux meta ast := by
    simp [build_jsonld, graph_nodes, Json.getD, Json.asList]
  refine ⟨hg, project_node_build meta ast now, by simp [buildRoot, Json.get], ?_, ?_⟩
  · intro pid hpid
    rw [hg]
    have hroot : (buildRoot meta ast).get "@id" = .str meta.html_url := by
      simp [buildRoot, Json.get]
    have hhow : (buildHowto meta ast).get "@id"
        = .str (meta.html_url ++ "#howto-install") := by
      simp [buildHowto, Json.get]
    have hfea : (buildFeatures meta ast).get "@id"
        = .str (meta.html_url ++ "#features") := by
      simp [buildFeatures, Json.get]
    have hpla : (buildPlatforms meta ast).get "@id"
        = .str (meta.html_url ++ "#supported-platforms") := by
      simp [buildPlatforms, Json.get]
    have d1 : meta.html_url ≠ meta.html_url ++ "#howto-install" :=
      str_ne_append _ _ (by decide)
    have d2 : meta.html_url ≠ meta.html_url ++ "#features" :=
      str_ne_append _ _ (by decide)
    have d3 : meta.html_url ≠ meta.html_url ++ "#supported-platforms" :=
      str_ne_append _ _ (by decide)
    have d4 : meta.html_url ++ "#howto-install" ≠ meta.html_url ++ "#features" :=
      str_append_ne _ (by decide)
    have d5 : meta.html_url ++ "#howto-install"
        ≠ meta.html_url ++ "#supported-platforms" :=
      str_append_ne _ (by decide)
    have d6 : meta.html_url ++ "#features"
        ≠ meta.html_url ++ "#supported-platforms" :=
      str_append_ne _ (by decide)
    have hpid' : ((find_install_cmds ast).isEmpty = false
          ∧ pid = meta.html_url ++ "#howto-install")
        ∨ ((list_after_heading ast ["feature", "key feature"]).isEmpty = false
          ∧ pid = meta.html_url ++ "#features")
        ∨ ((list_after_heading ast ["supported platform", "compatibility"]).isEmpty = false
          ∧ pid = meta.html_url ++ "#supported-platforms") := by
      unfold rootHasPart at hpid
      rcases List.mem_append.mp hpid with h | h
      · rcases List.mem_append.mp h with h' | h'
        · left
          cases hc : (find_install_cmds ast).isEmpty
          · simp [hc] at h'
            exact ⟨rfl, h'⟩
          · simp [hc] at h'
        · right; left
          cases hc : (list_after_heading ast ["feature", "key feature"]).isEmpty
          · simp [hc] at h'
            exact ⟨rfl, h'⟩
          · simp [hc] at h'
      · right; right
        cases hc : (list_after_heading ast
            ["supported platform", "compatibility"]).isEmpty
        · simp [hc] at h
          exact ⟨rfl, h⟩
        · simp [hc] at h
    have f1 := beq_eq_false_iff_ne.mpr d1
    have f2 := beq_eq_false_iff_ne.mpr d2
    have f3 := beq_eq_false_iff_ne.mpr d3
    have f4 := beq_eq_false_iff_ne.mpr d4
    have f5 := beq_eq_false_iff_ne.mpr d5
    have f6 := beq_eq_false_iff_ne.mpr d6
    have f7 := beq_eq_false_iff_ne.mpr (Ne.symm d4)
    have f8 := beq_eq_false_iff_ne.mpr (Ne.symm d5)
    have f9 := beq_eq_false_iff_ne.mpr (Ne.symm d6)
    unfold buildAux
    rcases hpid' with ⟨hc, rfl⟩ | ⟨hc, rfl⟩ | ⟨hc, rfl⟩ <;>
    by_cases hA : (find_install_cmds ast).isEmpty <;>
    by_cases hB : (list_after_heading ast ["feature", "key feature"]).isEmpty <;>
    by_cases hC : (list_after_heading ast
        ["supported platform", "compatibility"]).isEmpty <;>
      simp_all [List.filter_cons, List.filter_append, hroot, hhow, hfea, hpla,
        Json.str_beq]
  · intro n hn
    unfold buildAux at hn
    have m1 : jsonMember (buildHowto meta ast) "hasPart" = none := by
      simp [jsonMember, buildHowto]
    have m2 : jsonMember (buildFeatures meta ast) "hasPart" = none := by
      simp [jsonMember, buildFeatures]
    have m3 : jsonMember (buildPlatforms meta ast) "hasPart" = none := by
      simp [jsonMember, buildPlatforms]
    rcases List.mem_append.mp hn with h | h
    · rcases List.mem_append.mp h with h' | h'
      · cases hc : (find_install_cmds ast).isEmpty <;> simp [hc] at h'
        · rw [h']; exact m1
      · cases hc : (list_after_heading ast ["feature", "key feature"]).isEmpty <;>
          simp [hc] at h'
        · rw [h']; exact m2
    · cases hc : (list_after_heading ast
          ["supported platform", "compatibility"]).isEmpty <;> simp [hc] at h
      · rw [h]; exact m3

/-- A concrete metadata record and document for the C4 witness. -/
def c4Meta : Meta :=
  { html_url := "https://x/Foo", name := "Foo", description := none,
    license := none, topics := none, language := none }

def c4Tree : SNode :=
  .mk "root" 0 "" [
    .mk "heading" 1 "Foo" [],
    .mk "paragraph" 0 "A tiny tool." [],
    .mk "fence" 0 "pip install foo\n" []]

/-- Witness for C4 at a concrete build. -/
theorem claimC4_witness :
    ("https://x/Foo#howto-install" ∈ rootHasPart c4Meta c4Tree) ∧
    ((graph_nodes (build_jsonld c4Meta c4Tree "t")).filter
      (fun n => n.get "@id" == Json.str "https://x/Foo#howto-install")).length = 1 ∧
    (buildHowto c4Meta c4Tree ∈ buildAux c4Meta c4Tree) ∧
    jsonMember (buildHowto c4Meta c4Tree) "hasPart" = none :=
  ⟨by decide,
   (claimC4_graph_invariants c4Meta c4Tree "t").2.2.2.1
     "https://x/Foo#howto-install" (by decide),
   by decide,
   (claimC4_graph_invariants c4Meta c4Tree "t").2.2.2.2
     (buildHowto c4Meta c4Tree) (by decide)⟩
